import Mathlib

/-!
Verification of the transition-frequency graph and probability vector
of the sparring-partner repository, shallowly embedded in Lean 4.

The main crate (`src/lib.rs`) defines a closed enumeration `PunchKind`
of six punch types, a counter newtype `Weight` over `usize`, and a
`Graph` wrapping a `HashMap<(PunchKind, PunchKind), Weight>` that is
constructed complete (all 36 ordered pairs mapped to weight 0) and
mutated only through `insert`, which increments one edge and reports
the prior count.

The `hmm` crate defines `ProbabilityVector<T, N>` with a validating
constructor `try_new` that checks the `f64` probabilities sum to
exactly `1.0`.  Its `f64` arithmetic is embedded parametrically: the
zero, the one, the addition and the equality test of the float type
are parameters, so every theorem below holds for the IEEE operations
in particular.
-/

/-- The closed enumeration of punch kinds, with the discriminants
declared in the source (`Jab = 1` … `RearUppercut = 6`). -/
inductive PunchKind where
  | Jab
  | Cross
  | LeadHook
  | RearHook
  | LeadUppercut
  | RearUppercut
deriving DecidableEq, Repr, Fintype

/-- The numeric discriminant of each variant, as written in the enum
declaration (`Jab = 1, Cross = 2, …`); `punch as u8` reads it off. -/
def PunchKind.discriminant : PunchKind → Nat
  | .Jab => 1
  | .Cross => 2
  | .LeadHook => 3
  | .RearHook => 4
  | .LeadUppercut => 5
  | .RearUppercut => 6

/-- `impl From<PunchKind> for u8`: `punch as u8`, the discriminant. -/
def PunchKind.u8_from (punch : PunchKind) : Nat :=
  punch.discriminant

/-- `PunchKind::as_u8`, which delegates to `u8::from`. -/
def PunchKind.as_u8 (self : PunchKind) : Nat :=
  PunchKind.u8_from self

/-- `Combo`: an ordered sequence of punches (a pure data holder). -/
structure Combo where
  punches : List PunchKind
deriving DecidableEq, Repr

/-- `Combo::new`: copies the given sequence into an owned one. -/
def Combo.new (punches : List PunchKind) : Combo :=
  ⟨punches⟩

/-- The `Weight` newtype over `usize`.  `usize` arithmetic is embedded
as `Nat` arithmetic; overflow is out of scope per the spec. -/
structure Weight where
  val : Nat
deriving DecidableEq, Repr

/-- `Weight::new`. -/
def Weight.new (weight : Nat) : Weight :=
  ⟨weight⟩

/-- `Weight::as_usize`. -/
def Weight.as_usize (self : Weight) : Nat :=
  self.val

/-- `impl From<usize> for Weight`: calls `Weight::new`. -/
def Weight.fromUsize (weight : Nat) : Weight :=
  Weight.new weight

/-- `impl Add<usize> for Weight`: `Self::from(self.0 + rhs)`. -/
def Weight.addUsize (self : Weight) (rhs : Nat) : Weight :=
  Weight.fromUsize (self.val + rhs)

/-- `impl Add<Weight> for Weight`: delegates to `Add<usize>` with
`rhs.0`. -/
def Weight.add (self rhs : Weight) : Weight :=
  self.addUsize rhs.val

/-- `impl AddAssign<usize> for Weight`: `*self = Self::from(self.0 + rhs)`.
Functionally, it returns the new value stored in `self`. -/
def Weight.addAssignUsize (self : Weight) (rhs : Nat) : Weight :=
  Weight.fromUsize (self.val + rhs)

/-- `impl AddAssign<Weight> for Weight`: delegates to
`AddAssign<usize>` with `rhs.0`. -/
def Weight.addAssignWeight (self rhs : Weight) : Weight :=
  self.addAssignUsize rhs.val

/-- A `HashMap<(PunchKind, PunchKind), Weight>` observed through
lookups: a partial map from ordered pairs to weights. -/
def NodeMap : Type :=
  PunchKind × PunchKind → Option Weight

/-- `HashMap::new()`: the empty map. -/
def NodeMap.empty : NodeMap :=
  fun _ => none

/-- `HashMap::insert`: stores `v` at key `k`, replacing any prior
entry; all other keys are unaffected. -/
def NodeMap.store (m : NodeMap) (k : PunchKind × PunchKind) (v : Weight) : NodeMap :=
  fun q => if q = k then some v else m q

/-- The `Graph` over `(PunchKind, PunchKind)` keys and `Weight` edges:
a wrapper around the node map. -/
structure Graph where
  nodes : NodeMap

/-- The array `punches` listing all six variants, in the order written
in `Default::default`. -/
def punchesList : List PunchKind :=
  [.Jab, .Cross, .LeadHook, .RearHook, .LeadUppercut, .RearUppercut]

/-- `impl Default for Graph<(PunchKind, PunchKind), Weight>`: folds the
cross product of `punchesList` with itself into a map, storing weight 0
at every pair. -/
def Graph.defaultGraph : Graph :=
  let keys := punchesList.flatMap fun first => punchesList.map fun next => (first, next)
  ⟨keys.foldl (fun acc x => acc.store x (Weight.new 0)) NodeMap.empty⟩

/-- `Graph::new()`: calls `Self::default()`. -/
def Graph.new : Graph :=
  Graph.defaultGraph

/-- `Graph::insert(&mut self, first, next)`.  The source unwraps the
edge lookup (panicking if absent), saves the prior value, increments
the stored weight by `1` via `AddAssign<usize>`, and returns `None` if
the prior value was `Weight::from(0)` and `Some(prior)` otherwise.
The outer `Option` models the panic: `none` is the unreachable unwrap
failure; `some (g, r)` is normal return of `r` with updated state `g`. -/
def Graph.insert (self : Graph) (first next : PunchKind) : Option (Graph × Option Weight) :=
  match self.nodes (first, next) with
  | none => none
  | some w =>
    let prev_val := w
    let updated : Graph := ⟨self.nodes.store (first, next) (prev_val.addAssignUsize 1)⟩
    some (updated, if prev_val = Weight.fromUsize 0 then none else some prev_val)

/-- Graph states reachable from `Graph::new()` by sequences of
successful `insert` calls. -/
inductive Graph.Reachable : Graph → Prop
  | base : Graph.Reachable Graph.defaultGraph
  | step {g g' : Graph} {a b : PunchKind} {r : Option Weight} :
      Graph.Reachable g → g.insert a b = some (g', r) → Graph.Reachable g'

/-- Running `insert(a, b)` `k` times from `g`, tracking the graph state
and the return value of the most recent call (`none` before any call).
The outer `Option` propagates a panic in any call. -/
def Graph.insertRun (g : Graph) (a b : PunchKind) : Nat → Option (Graph × Option Weight)
  | 0 => some (g, none)
  | k + 1 => (Graph.insertRun g a b k).bind fun s => s.1.insert a b

/-- The graph obtained from the fresh graph by one successful
`insert(Jab, Cross)`: the edge `(Jab, Cross)` now holds weight 1.
Used as a concrete post-state in witnesses. -/
def Graph.insertedOnce : Graph :=
  ⟨Graph.defaultGraph.nodes.store (PunchKind.Jab, PunchKind.Cross) (Weight.fromUsize 1)⟩

-- Helper lemmas

/-- The freshly constructed graph stores weight 0 at every one of the
36 ordered pairs. -/
theorem defaultGraph_nodes (p : PunchKind × PunchKind) :
    Graph.defaultGraph.nodes p = some (Weight.new 0) := by
  revert p
  decide

theorem NodeMap.store_same (m : NodeMap) (k : PunchKind × PunchKind) (v : Weight) :
    m.store k v k = some v := by
  simp [NodeMap.store]

theorem NodeMap.store_other (m : NodeMap) (k q : PunchKind × PunchKind) (v : Weight)
    (h : q ≠ k) : m.store k v q = m q := by
  simp [NodeMap.store, h]

/-- Unfolding `insert` on a graph where the looked-up edge is present. -/
theorem Graph.insert_eq_of_nodes (g : Graph) (a b : PunchKind) (w : Weight)
    (h : g.nodes (a, b) = some w) :
    g.insert a b =
      some (⟨g.nodes.store (a, b) (w.addAssignUsize 1)⟩,
        if w = Weight.fromUsize 0 then none else some w) := by
  simp [Graph.insert, h]

/-- Storing a value never empties a slot: if a key was present before,
it is present after, and the stored key is always present after. -/
theorem NodeMap.store_isSome_of (m : NodeMap) (k : PunchKind × PunchKind) (v : Weight)
    (p : PunchKind × PunchKind) (h : (m p).isSome = true) :
    ((m.store k v) p).isSome = true := by
  by_cases hp : p = k <;> simp [NodeMap.store, hp, h]

/-- An insert that returns normally found the edge present, updated it
by one, and left every other edge alone. -/
theorem Graph.insert_inv {g g' : Graph} {a b : PunchKind} {r : Option Weight}
    (h : g.insert a b = some (g', r)) :
    ∃ w, g.nodes (a, b) = some w ∧
      g'.nodes = g.nodes.store (a, b) (w.addAssignUsize 1) ∧
      r = if w = Weight.fromUsize 0 then none else some w := by
  cases hw : g.nodes (a, b) with
  | none => simp [Graph.insert, hw] at h
  | some w =>
    rw [Graph.insert_eq_of_nodes g a b w hw] at h
    injection h with h1
    injection h1 with h2 h3
    exact ⟨w, rfl, by rw [← h2], h3.symm⟩

/-- Every reachable graph has every one of the 36 edges present. -/
theorem Graph.reachable_complete {g : Graph} (h : Graph.Reachable g) :
    ∀ p : PunchKind × PunchKind, (g.nodes p).isSome = true := by
  induction h with
  | base =>
    intro p
    rw [defaultGraph_nodes p]
    rfl
  | step _ hins ih =>
    intro p
    obtain ⟨w, _, hnodes, _⟩ := Graph.insert_inv hins
    rw [hnodes]
    exact NodeMap.store_isSome_of _ _ _ _ (ih p)

/-! ## The `hmm` crate: `ProbabilityVector<T, N>`

The probability type `f64` is embedded parametrically: `fzero` is
`0.0` (the initial accumulator of `Iterator::sum`), `fone` is `1_f64`,
`fadd` is `f64` addition, and `fbeq` is the `f64` equality operator
`==`.  Every theorem holds for all instantiations, hence in particular
for the IEEE-754 operations used by the source. -/

/-- `ProbabilityVector<T, N>`: parallel sequences of labels and
probabilities (the array length `N` is the list length). -/
structure ProbabilityVector (T F : Type) where
  states : List T
  probabilities : List F

/-- `iter().map(..).copied().sum::<f64>()`: left fold of the float
addition over the probabilities in sequence order, starting at `0.0`. -/
def floatSum {F : Type} (fzero : F) (fadd : F → F → F) (l : List F) : F :=
  l.foldl fadd fzero

/-- `ProbabilityVector::new_unchecked`: fills the label array and the
probability array slot by slot from the source pairs.  Its observable
result is the pair of projections of `src`. -/
def ProbabilityVector.new_unchecked (T F : Type) (src : List (T × F)) :
    ProbabilityVector T F :=
  ⟨src.map Prod.fst, src.map Prod.snd⟩

/-- `ProbabilityVector::try_new`: sums the probabilities and returns
`Some(new_unchecked(src))` when the sum compares equal to `1_f64`,
and `None` otherwise. -/
def ProbabilityVector.try_new (T F : Type) (fzero fone : F) (fadd : F → F → F)
    (fbeq : F → F → Bool) (src : List (T × F)) : Option (ProbabilityVector T F) :=
  let probability_sum := floatSum fzero fadd (src.map Prod.snd)
  if fbeq probability_sum fone then
    some (ProbabilityVector.new_unchecked T F src)
  else
    none

/-! ## Claim theorems -/

/-- Claim C2: the default-constructed graph maps every one of the 36
ordered pairs of the 6 `PunchKind` variants to weight 0, and the key
type has exactly 36 inhabitants, so no key outside this set can be
present. -/
theorem defaultGraph_complete_zero :
    (∀ p : PunchKind × PunchKind, Graph.defaultGraph.nodes p = some (Weight.new 0)) ∧
    Fintype.card (PunchKind × PunchKind) = 36 :=
  ⟨defaultGraph_nodes, by decide⟩

/-- Claim C7: the numeric codes of the six variants are 1 through 6 in
declaration order, and the forward mapping is injective. -/
theorem as_u8_codes_injective :
    PunchKind.as_u8 .Jab = 1 ∧ PunchKind.as_u8 .Cross = 2 ∧
    PunchKind.as_u8 .LeadHook = 3 ∧ PunchKind.as_u8 .RearHook = 4 ∧
    PunchKind.as_u8 .LeadUppercut = 5 ∧ PunchKind.as_u8 .RearUppercut = 6 ∧
    Function.Injective PunchKind.as_u8 := by
  refine ⟨rfl, rfl, rfl, rfl, rfl, rfl, ?_⟩
  decide

/-- Claim C8: `Weight` addition is exact non-negative integer addition
in all four forms (`Weight + Weight`, `Weight + usize`, `+= Weight`,
`+= usize`). -/
theorem weight_addition_exact (a b : Nat) :
    Weight.add (Weight.new a) (Weight.new b) = Weight.new (a + b) ∧
    Weight.addUsize (Weight.new a) b = Weight.new (a + b) ∧
    Weight.addAssignWeight (Weight.new a) (Weight.new b) = Weight.new (a + b) ∧
    Weight.addAssignUsize (Weight.new a) b = Weight.new (a + b) :=
  ⟨rfl, rfl, rfl, rfl⟩

/-- Claim C3: `try_new` yields a present instance exactly when the
float sum of the probabilities, folded in sequence order, compares
equal to `1.0`; on every other sum it yields `None` (it is a total
function, so no crash). -/
theorem try_new_isSome_iff (T F : Type) (fzero fone : F) (fadd : F → F → F)
    (fbeq : F → F → Bool) (src : List (T × F)) :
    (ProbabilityVector.try_new T F fzero fone fadd fbeq src).isSome = true ↔
      fbeq (floatSum fzero fadd (src.map Prod.snd)) fone = true := by
  unfold ProbabilityVector.try_new
  cases h : fbeq (floatSum fzero fadd (src.map Prod.snd)) fone <;> simp [h]

/-- Claim C10: for the empty pair array, the float sum is the initial
accumulator `0.0`; whenever the float equality test rejects
`0.0 == 1.0` (as IEEE-754 does), `try_new` returns `None`. -/
theorem try_new_empty_none (T F : Type) (fzero fone : F) (fadd : F → F → F)
    (fbeq : F → F → Bool) (h : fbeq fzero fone = false) :
    ProbabilityVector.try_new T F fzero fone fadd fbeq [] = none := by
  unfold ProbabilityVector.try_new
  simp [floatSum, h]

/-- Witness for C10 at a concrete instantiation where the zero and the
one of the float model compare unequal. -/
theorem try_new_empty_none_witness :
    Nat.beq 0 1 = false ∧
      ProbabilityVector.try_new Nat Nat 0 1 Nat.add Nat.beq [] = none :=
  ⟨by decide, try_new_empty_none Nat Nat 0 1 Nat.add Nat.beq (by decide)⟩

/-- Invariant of repeated insertion on the fresh graph: after `k` calls
of `insert(a, b)` the run succeeds, the edge `(a, b)` holds weight `k`,
and the last call returned `None` for `k ≤ 1` and `Some(k-1)` after. -/
theorem insertRun_default_spec (a b : PunchKind) (k : Nat) :
    ∃ g : Graph,
      Graph.insertRun Graph.defaultGraph a b k =
        some (g, if k = 0 then none else if k = 1 then none
          else some (Weight.new (k - 1))) ∧
      g.nodes (a, b) = some (Weight.new k) := by
  induction k with
  | zero =>
    exact ⟨Graph.defaultGraph, rfl, defaultGraph_nodes (a, b)⟩
  | succ k ih =>
    obtain ⟨g, hrun, hnode⟩ := ih
    refine ⟨⟨g.nodes.store (a, b) ((Weight.new k).addAssignUsize 1)⟩, ?_, ?_⟩
    · have hstep : Graph.insertRun Graph.defaultGraph a b (k + 1) =
          (Graph.insertRun Graph.defaultGraph a b k).bind fun s => s.1.insert a b := rfl
      rw [hstep, hrun, Option.some_bind]
      rw [Graph.insert_eq_of_nodes g a b (Weight.new k) hnode]
      by_cases hk : k = 0
      · subst hk
        rfl
      · have hk1 : k + 1 ≠ 1 := by omega
        have hwne : Weight.new k ≠ Weight.fromUsize 0 := by
          intro hcontra
          exact hk (congrArg Weight.val hcontra)
        simp [hwne, hk1]
    · exact NodeMap.store_same _ _ _

/-- Claim C1: starting from the fresh graph, after `k ≥ 1` calls of
`insert(a, b)` the stored weight at `(a, b)` is `k`, and the `k`-th
call returned `None` when `k = 1` and `Some(Weight(k-1))` when `k ≥ 2`. -/
theorem insert_k_times_spec (a b : PunchKind) (k : Nat) (hk : 1 ≤ k) :
    (Graph.insertRun Graph.defaultGraph a b k).map
        (fun s => (s.1.nodes (a, b), s.2)) =
      some (some (Weight.new k),
        if k = 1 then none else some (Weight.new (k - 1))) := by
  obtain ⟨g, hrun, hnode⟩ := insertRun_default_spec a b k
  rw [hrun]
  have hk0 : k ≠ 0 := by omega
  simp [hnode, hk0]

/-- Witness for C1: five `insert(Jab, Cross)` calls leave weight 5 on
the `(Jab, Cross)` edge and the fifth call returned `Some(Weight(4))`. -/
theorem insert_k_times_spec_witness :
    1 ≤ 5 ∧
      (Graph.insertRun Graph.defaultGraph PunchKind.Jab PunchKind.Cross 5).map
          (fun s => (s.1.nodes (PunchKind.Jab, PunchKind.Cross), s.2)) =
        some (some (Weight.new 5),
          if 5 = 1 then none else some (Weight.new (5 - 1))) :=
  ⟨by decide, insert_k_times_spec PunchKind.Jab PunchKind.Cross 5 (by decide)⟩

/-- Claim C4: on every reachable graph, `insert` on any pair of valid
variants finds the edge present, so the unwrap branch never fires and
the call returns normally. -/
theorem insert_total_on_reachable {g : Graph} (h : Graph.Reachable g)
    (a b : PunchKind) : (g.insert a b).isSome = true := by
  have hp := Graph.reachable_complete h (a, b)
  cases hw : g.nodes (a, b) with
  | none =>
    rw [hw] at hp
    exact absurd hp (by simp)
  | some w =>
    rw [Graph.insert_eq_of_nodes g a b w hw]
    rfl

/-- Witness for C4 on the fresh graph at `(Jab, Cross)`. -/
theorem insert_total_on_reachable_witness :
    (Graph.defaultGraph.insert PunchKind.Jab PunchKind.Cross).isSome = true :=
  insert_total_on_reachable Graph.Reachable.base PunchKind.Jab PunchKind.Cross

/-- Claim C5: every reachable graph has all 36 pairs present, and a
normal `insert` return leaves the presence of every key unchanged — it
neither adds nor removes keys. -/
theorem completeness_invariant (g : Graph) (h : Graph.Reachable g) :
    (∀ p : PunchKind × PunchKind, (g.nodes p).isSome = true) ∧
    (∀ (g' : Graph) (a b : PunchKind) (r : Option Weight),
      g.insert a b = some (g', r) →
      ∀ p : PunchKind × PunchKind, (g'.nodes p).isSome = (g.nodes p).isSome) := by
  refine ⟨Graph.reachable_complete h, ?_⟩
  intro g' a b r hins p
  obtain ⟨w, hw, hnodes, _⟩ := Graph.insert_inv hins
  rw [hnodes]
  by_cases hp : p = (a, b)
  · subst hp
    rw [NodeMap.store_same, hw]
    rfl
  · rw [NodeMap.store_other _ _ _ _ hp]

/-- Witness for C5 on the fresh graph at `(Jab, Jab)`. -/
theorem completeness_invariant_witness :
    (Graph.defaultGraph.nodes (PunchKind.Jab, PunchKind.Jab)).isSome = true :=
  (completeness_invariant Graph.defaultGraph Graph.Reachable.base).1
    (PunchKind.Jab, PunchKind.Jab)

/-- Claim C6: a normal `insert(a, b)` return leaves every other edge's
stored weight unchanged, and increments the `(a, b)` edge by exactly 1. -/
theorem insert_frame {g g' : Graph} {a b : PunchKind} {r : Option Weight}
    (h : g.insert a b = some (g', r)) :
    (∀ p : PunchKind × PunchKind, p ≠ (a, b) → g'.nodes p = g.nodes p) ∧
    (∀ w : Weight, g.nodes (a, b) = some w →
      g'.nodes (a, b) = some (Weight.new (w.val + 1))) := by
  obtain ⟨w, hw, hnodes, _⟩ := Graph.insert_inv h
  constructor
  · intro p hp
    rw [hnodes, NodeMap.store_other _ _ _ _ hp]
  · intro w' hw'
    have h1 : w = w' := by
      have h2 := hw.symm.trans hw'
      injection h2
    subst h1
    rw [hnodes, NodeMap.store_same]
    rfl

/-- Witness for C6: one `insert(Jab, Cross)` on the fresh graph leaves
`(Cross, Jab)` untouched and raises `(Jab, Cross)` to weight 1. -/
theorem insert_frame_witness :
    Graph.defaultGraph.insert PunchKind.Jab PunchKind.Cross =
        some (Graph.insertedOnce, none) ∧
    Graph.insertedOnce.nodes (PunchKind.Cross, PunchKind.Jab) =
        Graph.defaultGraph.nodes (PunchKind.Cross, PunchKind.Jab) ∧
    Graph.insertedOnce.nodes (PunchKind.Jab, PunchKind.Cross) =
        some (Weight.new 1) := by
  have hins : Graph.defaultGraph.insert PunchKind.Jab PunchKind.Cross =
      some (Graph.insertedOnce, none) := by
    rw [Graph.insert_eq_of_nodes Graph.defaultGraph PunchKind.Jab PunchKind.Cross
      (Weight.new 0) (defaultGraph_nodes (PunchKind.Jab, PunchKind.Cross))]
    rfl
  exact ⟨hins,
    (insert_frame hins).1 (PunchKind.Cross, PunchKind.Jab) (by decide),
    (insert_frame hins).2 (Weight.new 0)
      (defaultGraph_nodes (PunchKind.Jab, PunchKind.Cross))⟩

/-- Claim C9: across any normal `insert` step from a reachable graph,
no stored weight decreases. -/
theorem weights_monotone {g : Graph} (hreach : Graph.Reachable g) {g' : Graph}
    {a b : PunchKind} {r : Option Weight}
    (hins : g.insert a b = some (g', r)) (p : PunchKind × PunchKind)
    (w w' : Weight) (hw : g.nodes p = some w) (hw' : g'.nodes p = some w') :
    w.val ≤ w'.val := by
  obtain ⟨w0, hw0, hnodes, _⟩ := Graph.insert_inv hins
  rw [hnodes] at hw'
  by_cases hp : p = (a, b)
  · subst hp
    have h1 : w0 = w := by
      have h2 := hw0.symm.trans hw
      injection h2
    rw [NodeMap.store_same] at hw'
    injection hw' with h2
    rw [← h1, ← h2]
    exact Nat.le_succ w0.val
  · rw [NodeMap.store_other _ _ _ _ hp] at hw'
    have h1 := hw.symm.trans hw'
    injection h1 with h2
    rw [h2]

/-- Witness for C9: the first `insert(Jab, Cross)` takes the
`(Jab, Cross)` weight from 0 to 1, which does not decrease it. -/
theorem weights_monotone_witness :
    Graph.defaultGraph.nodes (PunchKind.Jab, PunchKind.Cross) =
        some (Weight.new 0) ∧
    Graph.insertedOnce.nodes (PunchKind.Jab, PunchKind.Cross) =
        some (Weight.new 1) ∧
    (Weight.new 0).val ≤ (Weight.new 1).val := by
  have hins : Graph.defaultGraph.insert PunchKind.Jab PunchKind.Cross =
      some (Graph.insertedOnce, none) := by
    rw [Graph.insert_eq_of_nodes Graph.defaultGraph PunchKind.Jab PunchKind.Cross
      (Weight.new 0) (defaultGraph_nodes (PunchKind.Jab, PunchKind.Cross))]
    rfl
  have hn1 : Graph.insertedOnce.nodes (PunchKind.Jab, PunchKind.Cross) =
      some (Weight.new 1) := by
    simp [Graph.insertedOnce, NodeMap.store, Weight.fromUsize, Weight.new]
  exact ⟨defaultGraph_nodes (PunchKind.Jab, PunchKind.Cross), hn1,
    weights_monotone Graph.Reachable.base hins (PunchKind.Jab, PunchKind.Cross)
      (Weight.new 0) (Weight.new 1)
      (defaultGraph_nodes (PunchKind.Jab, PunchKind.Cross)) hn1⟩

/-- Witness for C3 at a concrete instantiation of the float model:
the probabilities sum exactly to the one of the model, so construction
succeeds. -/
theorem try_new_isSome_iff_witness :
    (ProbabilityVector.try_new Nat Nat 0 1 (fun x y => x + y)
        (fun x y => decide (x = y))
        [(0, 0), (1, 1), (2, 0)]).isSome = true :=
  (try_new_isSome_iff Nat Nat 0 1 (fun x y => x + y) (fun x y => decide (x = y))
    [(0, 0), (1, 1), (2, 0)]).mpr (by decide)
